import Mathlib

/-!
Verification of the demand-to-shift compiler in `src/main.py` (`optimize`).

The embedding works over exact rationals (the source uses Python floats and
`numeric` database values; the spec speaks of real-valued curves).  Times are
measured in 15-minute slot units: the in-window profile rows `times[0..n-1]`
become slot indices `0..n-1`, the staffing-window end (`times[-1] + 15min`)
becomes `n`, and the 3-hour minimum shift duration becomes 12 slots.
-/

namespace Rekenservice

/-- Python `int(x)`: truncation toward zero (`src/main.py` line 262,
`base_blocks = [int(x) for x in raw]`). -/
def truncQ (q : ℚ) : ℤ := if 0 ≤ q then ⌊q⌋ else ⌈q⌉

/-- Python 3 `round(x)`: round half to even (`src/main.py` line 261,
`target_blocks_dyn = int(round(sum(raw)))`). -/
def pyRound (q : ℚ) : ℤ :=
  if q - ⌊q⌋ < 1/2 then ⌊q⌋
  else if 1/2 < q - ⌊q⌋ then ⌊q⌋ + 1
  else if ⌊q⌋ % 2 = 0 then ⌊q⌋ else ⌊q⌋ + 1

/-- Python `round(x, 2)` (demand rows are stored rounded to two decimals,
`src/main.py` line 223). -/
def pyRound2 (q : ℚ) : ℚ := (pyRound (q * 100) : ℚ) / 100

/-- Fractional parts used as sort keys: `frac = [x - b for x, b in zip(raw, base_blocks)]`
(`src/main.py` line 263), read off at index `i`. -/
def fracKey (x : List ℚ) (i : ℕ) : ℚ := x.getD i 0 - (truncQ (x.getD i 0) : ℚ)

/-- The call `sorted(range(n), key=lambda i: frac[i], reverse=True)` (`src/main.py` line 268):
stable sort, descending by `frac`, ties in index order. -/
def sortDescByFrac (x : List ℚ) (l : List ℕ) : List ℕ :=
  l.insertionSort (fun i j => fracKey x j ≤ fracKey x i)

/-- The call `sorted(range(n), key=lambda i: frac[i])` (`src/main.py` line 276):
stable sort, ascending by `frac`, ties in index order. -/
def sortAscByFrac (x : List ℚ) (l : List ℕ) : List ℕ :=
  l.insertionSort (fun i j => fracKey x i ≤ fracKey x j)

/-- The positive-remainder loop (`src/main.py` lines 269-274):
`while rem > 0: idx = order[j % len(order)]; need[idx] += 1; rem -= 1; j += 1`. -/
def incLoop (order : List ℕ) : ℕ → ℕ → List ℤ → List ℤ
  | 0, _, need => need
  | rem + 1, j, need =>
      let idx := order.getD (j % order.length) 0
      incLoop order rem (j + 1) (need.set idx (need.getD idx 0 + 1))

/-- The negative-remainder loop (`src/main.py` lines 277-283):
`while rem < 0: idx = order[j % len(order)]; if need[idx] > 0: need[idx] -= 1; rem += 1; j += 1`.
The loop in the source has no fuel: it simply spins past zero-valued slots.  The
`fuel` argument only bounds the number of loop iterations the model will follow;
`none` means the source loop has not finished within `fuel` iterations.  `rem`
counts the decrements still owed (the source's `-rem`). -/
def decLoop (order : List ℕ) : ℕ → ℕ → ℕ → List ℤ → Option (List ℤ)
  | _, 0, _, need => some need
  | 0, _ + 1, _, _ => none
  | fuel + 1, rem + 1, j, need =>
      let idx := order.getD (j % order.length) 0
      if 0 < need.getD idx 0 then
        decLoop order fuel rem (j + 1) (need.set idx (need.getD idx 0 - 1))
      else
        decLoop order fuel (rem + 1) (j + 1) need

/-- The integerization step (`src/main.py` lines 260-283): compute
`target_blocks_dyn = int(round(sum(raw)))`, `base_blocks = [int(x) for x in raw]`,
`rem = target_blocks_dyn - sum(base_blocks)`, then run the increment loop
(`rem > 0`) or the decrement loop (`rem < 0`).  `none` models the decrement
loop failing to finish (the source would spin forever). -/
def integerize (x : List ℚ) : Option (List ℤ) :=
  let base := x.map truncQ
  let rem : ℤ := pyRound x.sum - base.sum
  if 0 < rem ∧ 0 < x.length then
    some (incLoop (sortDescByFrac x (List.range x.length)) rem.toNat 0 base)
  else if rem < 0 ∧ 0 < x.length then
    decLoop (sortAscByFrac x (List.range x.length)) (x.length * rem.natAbs)
      rem.natAbs 0 base
  else
    some base

/-- Modelled from the spec (§4.3): the spec's biased ranking weight
`biasWeight(i) = 1 + lateBias * (i / (n-1))`; no such weight exists in
`src/main.py`. -/
def biasWeight (lateBias : ℚ) (n i : ℕ) : ℚ := 1 + lateBias * ((i : ℚ) / ((n : ℚ) - 1))

/-- Modelled from the spec (§4.3): an integerizer whose positive-remainder path
ranks slots by `frac[i] * biasWeight(i)` descending, as the spec claims the
code does.  Used only to compare against `integerize`. -/
def integerizeSpecBiased (lateBias : ℚ) (x : List ℚ) : Option (List ℤ) :=
  let base := x.map truncQ
  let rem : ℤ := pyRound x.sum - base.sum
  if 0 < rem ∧ 0 < x.length then
    some (incLoop
      ((List.range x.length).insertionSort (fun i j =>
        fracKey x j * biasWeight lateBias x.length j ≤
          fracKey x i * biasWeight lateBias x.length i))
      rem.toNat 0 base)
  else if rem < 0 ∧ 0 < x.length then
    decLoop (sortAscByFrac x (List.range x.length)) (x.length * rem.natAbs)
      rem.natAbs 0 base
  else
    some base

/-- Sum of the positive parts: the total number of decrements still available to
the negative-remainder loop. -/
def posSum (l : List ℤ) : ℤ := (l.map (fun v => max v 0)).sum

/-! ### The shift synthesizer (`src/main.py` lines 292-334)

Times are in 15-minute slot units: the in-window slot list `times` becomes the
indices `0, …, n-1`, `times[-1] + 15min` (the staffing-window end
`staff_end_ts`) becomes `n`, and `timedelta(hours=MIN_SHIFT_HOURS)` becomes
`minShiftSlots = 12` slots, so `(t - s) >= timedelta(hours=3)` becomes
`s + 12 ≤ t`. -/

/-- The constant `MIN_SHIFT_HOURS = 3` (`src/main.py` line 17). -/
def MIN_SHIFT_HOURS : ℕ := 3

/-- The minimum shift duration in 15-minute slots (3 hours = 12 slots). -/
def minShiftSlots : ℕ := 4 * MIN_SHIFT_HOURS

/-- One row of `planning.diensten_voorstel`: a proposed shift with start and end
slot (`start_ts`, `eind_ts`). -/
structure Shift where
  start : ℕ
  stop : ℕ
deriving DecidableEq, Repr

/-- Open phase (`src/main.py` lines 310-311):
`while len(active) < required: active.append(t)`. -/
def openPhase (t k : ℕ) (a : List ℕ) : List ℕ := a ++ List.replicate (k - a.length) t

/-- The scan `for i, s in enumerate(active): if (t - s) >= 3h: start = active.pop(i); break`
(`src/main.py` lines 314-322): returns the first qualifying start together with
the remaining list, or `none` if no entry qualifies. -/
def findQualify (minS t : ℕ) : List ℕ → Option (ℕ × List ℕ)
  | [] => none
  | s :: rest =>
      if s + minS ≤ t then some (s, rest)
      else
        match findQualify minS t rest with
        | none => none
        | some (x, l) => some (x, s :: l)

/-- Close phase (`src/main.py` lines 312-324):
`while len(active) > required:` pop the first qualifying entry and emit a shift
`(start, t)`; stop when no entry qualifies (`if not closed: break`).  Each pass
removes one entry, so `fuel = len(active)` iterations always suffice. -/
def closeLoop (minS t k : ℕ) : ℕ → List ℕ → List Shift → List ℕ × List Shift
  | 0, a, out => (a, out)
  | fuel + 1, a, out =>
      if k < a.length then
        match findQualify minS t a with
        | none => (a, out)
        | some (s, rest) => closeLoop minS t k fuel rest (out ++ [⟨s, t⟩])
      else (a, out)

/-- One slot of the synthesizer loop (`src/main.py` lines 309-324): open up to
`required`, then close down toward `required`. -/
def synthStep (minS t k : ℕ) (a : List ℕ) (out : List Shift) : List ℕ × List Shift :=
  closeLoop minS t k (openPhase t k a).length (openPhase t k a) out

/-- The slot loop `for t, required in zip(times, need)` (`src/main.py` line 309),
starting at slot `t` with demand suffix `ks`. -/
def synthRun (minS : ℕ) : ℕ → List ℕ → List ℕ → List Shift → List ℕ × List Shift
  | _, [], a, out => (a, out)
  | t, k :: ks, a, out =>
      synthRun minS (t + 1) ks (synthStep minS t k a out).1 (synthStep minS t k a out).2

/-- One past the last index holding a positive value, or `0` if the list has
none (`last_idx + 1` for `last_idx` as in `src/main.py` lines 294-298). -/
def lastPosSucc : List ℕ → ℕ
  | [] => 0
  | k :: ks =>
      if lastPosSucc ks = 0 then (if 0 < k then 1 else 0) else lastPosSucc ks + 1

/-- The value `needed_end` (`src/main.py` lines 299-300) in slot units: one past the last
slot with positive demand, falling back to the window end (`times[-1] + 15min`,
i.e. `need.length`) when demand is all zero. -/
def nEnd (need : List ℕ) : ℕ :=
  if lastPosSucc need = 0 then need.length else lastPosSucc need

/-- The complete synthesizer (`src/main.py` lines 307-334): the slot loop
followed by day-end finalization, which closes every remaining entry at
`end = max(s + minShift, needed_end)` clamped to the window end
(`if end > staff_end_ts: end = staff_end_ts`). -/
def buildShifts (minS : ℕ) (need : List ℕ) : List Shift :=
  (synthRun minS 0 need [] []).2 ++
    (synthRun minS 0 need [] []).1.map
      (fun s => ⟨s, min (max (s + minS) (nEnd need)) need.length⟩)

/-- Number of emitted shifts `sh` with `sh.start ≤ τ < sh.stop`: how many
people are on shift during slot `τ`. -/
def coverage (shifts : List Shift) (τ : ℕ) : ℕ :=
  shifts.countP (fun sh => sh.start ≤ τ && τ < sh.stop)

/-- The `active` list just after the slot loop has processed slot `j`. -/
def activeAfter (minS : ℕ) (need : List ℕ) (j : ℕ) : List ℕ :=
  (synthRun minS 0 (need.take (j + 1)) [] []).1

/-- The `active` list entering slot `j`. -/
def activeBefore (minS : ℕ) (need : List ℕ) (j : ℕ) : List ℕ :=
  (synthRun minS 0 (need.take j) [] []).1

/-- The demand curve is feasible for the synthesizer when no slot ends with
more open shifts than required — i.e. the close phase is never blocked by the
minimum-duration constraint into deferring a close. -/
def Feasible (minS : ℕ) (need : List ℕ) : Prop :=
  ∀ j, j < need.length → (activeAfter minS need j).length = need.getD j 0

instance (minS : ℕ) (need : List ℕ) : Decidable (Feasible minS need) :=
  inferInstanceAs (Decidable (∀ j, j < need.length →
    (activeAfter minS need j).length = need.getD j 0))

/-! ### Baseline enforcement, KPI aggregation and the optimize pipeline -/

/-- Baseline enforcement (`src/main.py` lines 285-288):
`for i in range(len(need)): if need[i] < baseline[i]: need[i] = baseline[i]`. -/
def applyBaseline (need baseline : List ℤ) : List ℤ := need.zipWith max baseline

/-- The total `planned_blocks = sum(need)` (`src/main.py` line 290). -/
def plannedBlocks (need : List ℤ) : ℤ := need.sum

/-- The hours `geplande_uren_dag = planned_blocks / 4.0` (`src/main.py` line 352). -/
def geplandeUren (need : List ℤ) : ℚ := (plannedBlocks need : ℚ) / 4

/-- The cost `geplande_kosten = geplande_uren_dag * blended_rate` (`src/main.py` line 353). -/
def geplandeKosten (need : List ℤ) (rate : ℚ) : ℚ := geplandeUren need * rate

/-- The percentage `geplande_pct = (geplande_kosten / omzet_p50) * 100 if omzet_p50 else None`
(`src/main.py` line 354); Python truthiness makes the guard `omzet_p50 ≠ 0`. -/
def geplandePct (need : List ℤ) (rate omzet : ℚ) : Option ℚ :=
  if omzet = 0 then none else some (geplandeKosten need rate / omzet * 100)

/-- Total length of the emitted shifts, in slots. -/
def totalShiftSlots (shifts : List Shift) : ℕ :=
  (shifts.map (fun sh => sh.stop - sh.start)).sum

/-- The two validation failures of `/optimize/day` (`src/main.py` lines 152-169):
`"Forecast ontbreekt of is 0"` and `"Geen geldige uurlonen gevonden"`. -/
inductive OptError where
  | invalidForecast : OptError
  | invalidRate : OptError
deriving DecidableEq, Repr

/-- The per-(date, role) artifacts the pipeline persists on success. -/
structure OptResult where
  raw : List ℚ
  need : List ℤ
  shifts : List Shift
  uren : ℚ
  kosten : ℚ
  pct : Option ℚ
deriving DecidableEq, Repr

/-- The `/optimize/day` pipeline (`src/main.py` lines 137-364) for one
(date, role), over the in-window profile shares.  Validation happens before any
demand or shift output exists; failure therefore produces no output of any kind.
`omzetP50?` is `none` when `prognose.dag` has no/NULL forecast row.
`.ok none` models the integerizer spinning forever (its loop has no exit).
`buildShifts` receives the curve clamped at 0 (`Int.toNat`): for a negative
`required` the source loop opens nothing and closes down to empty exactly as it
does for `required = 0`, so the clamp is observationally faithful. -/
def optimize (omzetP50? : Option ℚ) (blendedRate doelPct : ℚ)
    (shares : List ℚ) (baseline : List ℤ) : Except OptError (Option OptResult) :=
  match omzetP50? with
  | none => .error .invalidForecast
  | some omzet =>
      if omzet = 0 then .error .invalidForecast
      else if blendedRate ≤ 0 then .error .invalidRate
      else
        let targetUren := doelPct * omzet / blendedRate
        let wSum := shares.sum
        let raw := shares.map
          (fun a => if 0 < wSum then pyRound2 (a / wSum * targetUren * 4) else 0)
        match integerize raw with
        | none => .ok none
        | some y =>
            let need := applyBaseline y baseline
            .ok (some ⟨raw, need, buildShifts minShiftSlots (need.map Int.toNat),
              geplandeUren need, geplandeKosten need blendedRate,
              geplandePct need blendedRate omzet⟩)

/-! ### Basic lemmas about the rounding primitives and list operations -/

theorem ceil_as_floor (q : ℚ) : ⌈q⌉ = -⌊-q⌋ := by
  rw [← Int.ceil_neg, neg_neg]

theorem truncQ_of_nonneg {q : ℚ} (h : 0 ≤ q) : truncQ q = ⌊q⌋ := if_pos h

theorem truncQ_nonneg {q : ℚ} (h : 0 ≤ q) : 0 ≤ truncQ q := by
  rw [truncQ_of_nonneg h]
  exact Int.floor_nonneg.mpr h

theorem floor_le_pyRound (q : ℚ) : ⌊q⌋ ≤ pyRound q := by
  unfold pyRound
  split_ifs <;> omega

theorem pyRound_nonneg {q : ℚ} (h : 0 ≤ q) : 0 ≤ pyRound q :=
  le_trans (Int.floor_nonneg.mpr h) (floor_le_pyRound q)

theorem map_truncQ_sum_le_floor {x : List ℚ} (h : ∀ q ∈ x, 0 ≤ q) :
    (x.map truncQ).sum ≤ ⌊x.sum⌋ := by
  induction x with
  | nil => simp
  | cons a l ih =>
      have ha : 0 ≤ a := h a (List.mem_cons_self a l)
      have hl := ih (fun q hq => h q (List.mem_cons_of_mem a hq))
      have h1 : truncQ a + (l.map truncQ).sum ≤ ⌊a⌋ + ⌊l.sum⌋ := by
        rw [truncQ_of_nonneg ha]
        omega
      have h2 : ⌊a⌋ + ⌊l.sum⌋ ≤ ⌊a + l.sum⌋ := by
        rw [Int.le_floor]
        push_cast
        exact add_le_add (Int.floor_le a) (Int.floor_le l.sum)
      simpa using le_trans h1 h2

theorem getD_mem_of_lt {l : List ℤ} {i : ℕ} (hi : i < l.length) : l.getD i 0 ∈ l := by
  rw [List.getD_eq_getElem?_getD, List.getElem?_eq_getElem hi]
  exact List.getElem_mem hi

theorem getD_nonneg {l : List ℤ} (h : ∀ v ∈ l, 0 ≤ v) (i : ℕ) : 0 ≤ l.getD i 0 := by
  rcases lt_or_le i l.length with hi | hi
  · exact h _ (getD_mem_of_lt hi)
  · rw [List.getD_eq_default _ _ hi]

theorem getD_set_self {l : List ℤ} {i : ℕ} (v : ℤ) (h : i < l.length) :
    (l.set i v).getD i 0 = v := by
  induction l generalizing i with
  | nil => simp at h
  | cons a t ih =>
      cases i with
      | zero => simp
      | succ j => simpa using ih (by simpa using h)

theorem getD_set_ne {l : List ℤ} {i j : ℕ} (v : ℤ) (h : i ≠ j) :
    (l.set i v).getD j 0 = l.getD j 0 := by
  induction l generalizing i j with
  | nil => simp
  | cons a t ih =>
      cases i with
      | zero =>
          cases j with
          | zero => exact absurd rfl h
          | succ j' => simp
      | succ i' =>
          cases j with
          | zero => simp
          | succ j' => simpa using ih (fun hc => h (by omega))

theorem sum_set {l : List ℤ} {i : ℕ} (v : ℤ) (h : i < l.length) :
    (l.set i v).sum = l.sum + v - l.getD i 0 := by
  induction l generalizing i with
  | nil => simp at h
  | cons a t ih =>
      cases i with
      | zero => simp [List.sum_cons]; ring
      | succ j =>
          have hj := ih (i := j) (by simpa using h)
          rw [List.set_cons_succ, List.sum_cons, List.sum_cons, List.getD_cons_succ, hj]
          ring


theorem posSum_nil : posSum [] = 0 := rfl

theorem posSum_set_dec {l : List ℤ} {i : ℕ} (hi : i < l.length) (hp : 0 < l.getD i 0) :
    posSum (l.set i (l.getD i 0 - 1)) = posSum l - 1 := by
  induction l generalizing i with
  | nil => simp at hi
  | cons a t ih =>
      cases i with
      | zero =>
          simp only [List.getD_cons_zero] at hp ⊢
          simp only [List.set_cons_zero, posSum, List.map_cons, List.sum_cons]
          omega
      | succ j =>
          have hp' : 0 < t.getD j 0 := by simpa using hp
          have ht := ih (i := j) (by simpa using hi) hp'
          rw [List.getD_cons_succ, List.set_cons_succ]
          simp only [posSum, List.map_cons, List.sum_cons] at ht ⊢
          omega

theorem posSum_pos_exists {l : List ℤ} (h : 0 < posSum l) :
    ∃ i, i < l.length ∧ 0 < l.getD i 0 := by
  induction l with
  | nil => simp [posSum] at h
  | cons a t ih =>
      rcases lt_or_le 0 a with ha | ha
      · exact ⟨0, by simp, by simpa using ha⟩
      · have ht : 0 < posSum t := by
          simp only [posSum, List.map_cons, List.sum_cons] at h
          have : max a 0 = 0 := by omega
          rw [this] at h
          simpa [posSum] using h
        obtain ⟨i, hi, hp⟩ := ih ht
        exact ⟨i + 1, by simpa using hi, by simpa using hp⟩

theorem sum_le_posSum (l : List ℤ) : l.sum ≤ posSum l := by
  induction l with
  | nil => simp [posSum]
  | cons a t ih =>
      simp only [posSum, List.map_cons, List.sum_cons] at ih ⊢
      have : a ≤ max a 0 := le_max_left a 0
      omega

theorem posSum_nonneg (l : List ℤ) : 0 ≤ posSum l := by
  induction l with
  | nil => simp [posSum]
  | cons a t ih =>
      simp only [posSum, List.map_cons, List.sum_cons] at ih ⊢
      have : (0 : ℤ) ≤ max a 0 := le_max_right a 0
      omega

/-- The sum of the negative parts is what the sum exceeds `posSum` by. -/
theorem sum_sub_posSum (l : List ℤ) : l.sum - posSum l ≤ 0 := by
  have := sum_le_posSum l
  omega

/-! ### The increment loop -/

theorem getD_cycle_mem {order : List ℕ} (hne : order ≠ []) (j : ℕ) :
    order.getD (j % order.length) 0 ∈ order := by
  have hlen : 0 < order.length := List.length_pos.mpr hne
  rw [List.getD_eq_getElem?_getD, List.getElem?_eq_getElem (Nat.mod_lt j hlen)]
  exact List.getElem_mem _

theorem incLoop_length (order : List ℕ) (rem j : ℕ) (need : List ℤ) :
    (incLoop order rem j need).length = need.length := by
  induction rem generalizing j need with
  | zero => rfl
  | succ r ih => rw [incLoop, ih, List.length_set]

theorem incLoop_sum (order : List ℕ) (rem j : ℕ) (need : List ℤ)
    (ho : ∀ i ∈ order, i < need.length) (hne : order ≠ []) :
    (incLoop order rem j need).sum = need.sum + rem := by
  induction rem generalizing j need with
  | zero => simp [incLoop]
  | succ r ih =>
      rw [incLoop]
      have hlt : order.getD (j % order.length) 0 < need.length :=
        ho _ (getD_cycle_mem hne j)
      rw [ih (j + 1) _ (fun i hi => by rw [List.length_set]; exact ho i hi)]
      rw [sum_set _ hlt]
      push_cast
      ring

theorem incLoop_getD_ge (order : List ℕ) (rem j : ℕ) (need : List ℤ) (i : ℕ) :
    need.getD i 0 ≤ (incLoop order rem j need).getD i 0 := by
  induction rem generalizing j need with
  | zero => exact le_refl _
  | succ r ih =>
      rw [incLoop]
      refine le_trans ?_ (ih (j + 1) _)
      set idx := order.getD (j % order.length) 0 with hidx
      rcases eq_or_ne idx i with he | hne
      · subst he
        rcases lt_or_le idx need.length with hlt | hge
        · rw [getD_set_self _ hlt]; omega
        · rw [List.set_eq_of_length_le (by omega)]
      · rw [getD_set_ne _ hne]

theorem incLoop_forall_nonneg (order : List ℕ) (rem j : ℕ) (need : List ℤ)
    (h : ∀ v ∈ need, 0 ≤ v) : ∀ v ∈ incLoop order rem j need, 0 ≤ v := by
  induction rem generalizing j need with
  | zero => exact h
  | succ r ih =>
      rw [incLoop]
      refine ih (j + 1) _ (fun v hv => ?_)
      rcases List.mem_or_eq_of_mem_set hv with hv' | hv'
      · exact h v hv'
      · have := getD_nonneg h (order.getD (j % order.length) 0)
        omega

/-- Each pass of the increment loop walks the ranked order cyclically: slot `i`
receives one increment for every `m < rem` with `order[(j+m) % n] = i`. -/
theorem incLoop_getD_count (order : List ℕ) (rem j : ℕ) (need : List ℤ)
    (ho : ∀ i ∈ order, i < need.length) (hne : order ≠ []) (i : ℕ) :
    (incLoop order rem j need).getD i 0 =
      need.getD i 0 +
        ((List.range rem).countP (fun m => order.getD ((j + m) % order.length) 0 == i) : ℤ) := by
  induction rem generalizing j need with
  | zero => simp [incLoop]
  | succ r ih =>
      rw [incLoop]
      rw [ih (j + 1) _ (fun k hk => by rw [List.length_set]; exact ho k hk)]
      have hshift : (List.range (r + 1)).countP
            (fun m => order.getD ((j + m) % order.length) 0 == i)
          = ((if order.getD (j % order.length) 0 == i then 1 else 0) : ℕ)
            + (List.range r).countP
                (fun m => order.getD ((j + 1 + m) % order.length) 0 == i) := by
        have hfun : ((fun m => order.getD ((j + m) % order.length) 0 == i) ∘ Nat.succ)
            = (fun m => order.getD ((j + 1 + m) % order.length) 0 == i) := by
          funext m
          simp only [Function.comp_apply]
          have harg : j + Nat.succ m = j + 1 + m := by omega
          rw [harg]
        rw [List.range_succ_eq_map, List.countP_cons, List.countP_map, hfun]
        simp only [Nat.add_zero]
        omega
      rw [hshift]
      set idx := order.getD (j % order.length) 0 with hidx
      have hlt : idx < need.length := ho _ (hidx ▸ getD_cycle_mem hne j)
      rcases eq_or_ne idx i with he | hne'
      · subst he
        rw [getD_set_self _ hlt]
        simp only [beq_self_eq_true, if_true]
        push_cast
        ring
      · rw [getD_set_ne _ hne']
        simp only [beq_iff_eq, if_neg hne']
        push_cast
        ring

/-! ### The decrement loop -/

theorem decLoop_length (order : List ℕ) (fuel rem j : ℕ) (need y : List ℤ)
    (h : decLoop order fuel rem j need = some y) : y.length = need.length := by
  induction fuel generalizing rem j need with
  | zero =>
      cases rem with
      | zero => cases h; rfl
      | succ r => cases h
  | succ f ih =>
      cases rem with
      | zero => cases h; rfl
      | succ r =>
          rw [decLoop] at h
          split at h
          · rw [ih _ _ _ h, List.length_set]
          · exact ih _ _ _ h

theorem decLoop_sum (order : List ℕ) (fuel rem j : ℕ) (need y : List ℤ)
    (ho : ∀ i ∈ order, i < need.length) (hne : order ≠ [])
    (h : decLoop order fuel rem j need = some y) : y.sum = need.sum - rem := by
  induction fuel generalizing rem j need with
  | zero =>
      cases rem with
      | zero => cases h; simp
      | succ r => cases h
  | succ f ih =>
      cases rem with
      | zero => cases h; simp
      | succ r =>
          rw [decLoop] at h
          split at h
          case isTrue hpos =>
            have hlt : order.getD (j % order.length) 0 < need.length :=
              ho _ (getD_cycle_mem hne j)
            have hs := ih _ _ _ (fun k hk => by rw [List.length_set]; exact ho k hk) h
            rw [hs, sum_set _ hlt]
            push_cast
            ring
          case isFalse => exact ih _ _ _ ho h

/-- Starting a cyclic walk of `order` at offset `j`, any member of `order` is
reached within `order.length` steps. -/
theorem exists_cycle_hit {order : List ℕ} (hne : order ≠ []) {i : ℕ} (hi : i ∈ order)
    (j : ℕ) : ∃ q, q < order.length ∧ order.getD ((j + q) % order.length) 0 = i := by
  obtain ⟨p, hp, hgp⟩ := List.mem_iff_getElem.mp hi
  have hL : 0 < order.length := List.length_pos.mpr hne
  have hrL : j % order.length < order.length := Nat.mod_lt j hL
  refine ⟨(p + order.length - j % order.length) % order.length, Nat.mod_lt _ hL, ?_⟩
  have hpos : (j + (p + order.length - j % order.length) % order.length) % order.length
      = p := by
    rcases le_or_lt (j % order.length) p with hle | hlt
    · have h1 : (p + order.length - j % order.length) % order.length
          = p - j % order.length := by
        have h2 : p + order.length - j % order.length
            = (p - j % order.length) + order.length := by omega
        rw [h2, Nat.add_mod_right]
        exact Nat.mod_eq_of_lt (by omega)
      rw [h1, Nat.add_mod]
      rw [Nat.mod_eq_of_lt (show p - j % order.length < order.length by omega)]
      have h3 : j % order.length + (p - j % order.length) = p := by omega
      rw [h3, Nat.mod_eq_of_lt hp]
    · have h1 : (p + order.length - j % order.length) % order.length
          = p + order.length - j % order.length :=
        Nat.mod_eq_of_lt (by omega)
      rw [Nat.add_mod, Nat.mod_mod_of_dvd _ (dvd_refl _), h1]
      have h4 : j % order.length + (p + order.length - j % order.length)
          = p + order.length := by omega
      rw [h4, Nat.add_mod_right]
      exact Nat.mod_eq_of_lt hp
  rw [hpos, List.getD_eq_getElem?_getD, List.getElem?_eq_getElem hp]
  exact hgp

/-- Fuel sufficiency for the decrement loop: as long as the positive slots can
still absorb `rem + 1` decrements and a positive slot is hit within the next `k`
cyclic steps, `k + n * rem` iterations finish the loop. -/
theorem decLoop_some_aux (order : List ℕ) (hne : order ≠ []) (rem : ℕ) :
    ∀ k j (need : List ℤ) fuel,
      (∀ i ∈ order, i < need.length) →
      (∀ i, i < need.length → i ∈ order) →
      (∃ q, q < k ∧ 0 < need.getD (order.getD ((j + q) % order.length) 0) 0) →
      ((rem : ℤ) + 1 ≤ posSum need) →
      (k + order.length * rem ≤ fuel) →
      (decLoop order fuel (rem + 1) j need).isSome = true := by
  induction rem with
  | zero =>
      intro k
      induction k with
      | zero =>
          intro j need fuel _ _ hhit _ _
          obtain ⟨q, hq, _⟩ := hhit
          omega
      | succ k ihk =>
          intro j need fuel ho hcomp hhit hcap hfuel
          cases fuel with
          | zero => omega
          | succ f =>
              rw [decLoop]
              by_cases hpos : 0 < need.getD (order.getD (j % order.length) 0) 0
              · rw [if_pos hpos]
                rw [decLoop]
                rfl
              · rw [if_neg hpos]
                obtain ⟨q, hq, hp⟩ := hhit
                cases q with
                | zero => simp only [Nat.add_zero] at hp; exact absurd hp hpos
                | succ q' =>
                    refine ihk (j + 1) need f ho hcomp ⟨q', by omega, ?_⟩ hcap (by omega)
                    have harg : j + 1 + q' = j + (q' + 1) := by omega
                    rw [harg]
                    exact hp
  | succ r ihr =>
      intro k
      induction k with
      | zero =>
          intro j need fuel _ _ hhit _ _
          obtain ⟨q, hq, _⟩ := hhit
          omega
      | succ k ihk =>
          intro j need fuel ho hcomp hhit hcap hfuel
          have hmul : order.length * (r + 1) = order.length * r + order.length :=
            Nat.mul_succ _ _
          cases fuel with
          | zero => omega
          | succ f =>
              rw [decLoop]
              by_cases hpos : 0 < need.getD (order.getD (j % order.length) 0) 0
              · rw [if_pos hpos]
                have hlt : order.getD (j % order.length) 0 < need.length :=
                  ho _ (getD_cycle_mem hne j)
                have hps : posSum (need.set (order.getD (j % order.length) 0)
                    (need.getD (order.getD (j % order.length) 0) 0 - 1))
                    = posSum need - 1 := posSum_set_dec hlt hpos
                set need' := need.set (order.getD (j % order.length) 0)
                  (need.getD (order.getD (j % order.length) 0) 0 - 1) with hneed'
                have hlen' : need'.length = need.length := List.length_set _ _ _
                have hcap' : (r : ℤ) + 1 ≤ posSum need' := by
                  rw [hps]
                  push_cast at hcap
                  omega
                have hposSum' : 0 < posSum need' := by omega
                obtain ⟨i, hi_lt, hi_pos⟩ := posSum_pos_exists hposSum'
                have hi_mem : i ∈ order := hcomp i (by omega)
                obtain ⟨q, hq, hgq⟩ := exists_cycle_hit hne hi_mem (j + 1)
                refine ihr order.length (j + 1) need' f
                  (fun m hm => by rw [hlen']; exact ho m hm)
                  (fun m hm => hcomp m (by omega))
                  ⟨q, hq, by rw [hgq]; exact hi_pos⟩ hcap' (by omega)
              · rw [if_neg hpos]
                obtain ⟨q, hq, hp⟩ := hhit
                cases q with
                | zero => simp only [Nat.add_zero] at hp; exact absurd hp hpos
                | succ q' =>
                    refine ihk (j + 1) need f ho hcomp ⟨q', by omega, ?_⟩ hcap (by omega)
                    have harg : j + 1 + q' = j + (q' + 1) := by omega
                    rw [harg]
                    exact hp

/-- The decrement loop finishes within `n * rem` iterations whenever the
positive slots can absorb all `rem` owed decrements. -/
theorem decLoop_total (order : List ℕ) (hne : order ≠ []) (need : List ℤ)
    (ho : ∀ i ∈ order, i < need.length) (hcomp : ∀ i, i < need.length → i ∈ order)
    (rem : ℕ) (hrem : 0 < rem) (hcap : (rem : ℤ) ≤ posSum need) :
    (decLoop order (order.length * rem) rem 0 need).isSome = true := by
  cases rem with
  | zero => omega
  | succ r =>
      have hposSum : 0 < posSum need := by
        push_cast at hcap
        omega
      obtain ⟨i, hi_lt, hi_pos⟩ := posSum_pos_exists hposSum
      obtain ⟨q, hq, hgq⟩ := exists_cycle_hit hne (hcomp i hi_lt) 0
      refine decLoop_some_aux order hne r order.length 0 need _ ho hcomp
        ⟨q, hq, by rw [hgq]; exact hi_pos⟩ (by push_cast at hcap ⊢; omega) ?_
      rw [Nat.mul_succ]
      omega

/-! ### The integerizer -/

theorem sortDescByFrac_perm (x : List ℚ) (l : List ℕ) :
    (sortDescByFrac x l).Perm l := List.perm_insertionSort _ l

theorem sortAscByFrac_perm (x : List ℚ) (l : List ℕ) :
    (sortAscByFrac x l).Perm l := List.perm_insertionSort _ l

theorem order_range_mem_lt {ord : List ℕ} {n : ℕ} (hperm : ord.Perm (List.range n)) :
    ∀ i ∈ ord, i < n := fun i hi => List.mem_range.mp (hperm.mem_iff.mp hi)

theorem order_range_complete {ord : List ℕ} {n : ℕ} (hperm : ord.Perm (List.range n)) :
    ∀ i, i < n → i ∈ ord := fun i hi => hperm.mem_iff.mpr (List.mem_range.mpr hi)

theorem order_range_ne_nil {ord : List ℕ} {n : ℕ} (hperm : ord.Perm (List.range n))
    (hn : 0 < n) : ord ≠ [] := by
  intro hcon
  have := hperm.length_eq
  rw [hcon, List.length_range] at this
  simp at this
  omega

theorem integerize_nil : integerize [] = some [] := by
  norm_num [integerize, pyRound]

/-- Sum preservation: on any curve whose sum is nonnegative, the integerization
loop terminates and the output total is exactly the half-even rounding of the
input total; when the remainder is zero the output is the elementwise
truncation toward zero of the input. -/
theorem integerize_sum_eq (x : List ℚ) (h : 0 ≤ x.sum) :
    ∃ y, integerize x = some y ∧ y.sum = pyRound x.sum ∧ y.length = x.length ∧
      (pyRound x.sum = (x.map truncQ).sum → y = x.map truncQ) := by
  rcases Nat.eq_zero_or_pos x.length with hn | hn
  · have hx : x = [] := List.eq_nil_of_length_eq_zero hn
    subst hx
    refine ⟨[], integerize_nil, ?_, rfl, fun _ => rfl⟩
    norm_num [pyRound]
  · set base := x.map truncQ with hbase
    have hlenb : base.length = x.length := List.length_map x truncQ
    have hEqSum : (List.map truncQ x).sum = base.sum := by rw [hbase]
    set rem : ℤ := pyRound x.sum - base.sum with hrem
    rcases lt_trichotomy rem 0 with hneg | hzero | hpos
    · -- decrement path
      set ord := sortAscByFrac x (List.range x.length) with hord
      have hperm : ord.Perm (List.range x.length) := sortAscByFrac_perm x _
      have ho : ∀ i ∈ ord, i < base.length := by
        rw [hlenb]; exact order_range_mem_lt hperm
      have hcomp : ∀ i, i < base.length → i ∈ ord := by
        rw [hlenb]; exact order_range_complete hperm
      have hne : ord ≠ [] := order_range_ne_nil hperm hn
      have hlen_ord : ord.length = x.length := by
        rw [hperm.length_eq, List.length_range]
      have hnat : 0 < rem.natAbs := by omega
      have hcap : (rem.natAbs : ℤ) ≤ posSum base := by
        have h1 : 0 ≤ pyRound x.sum := pyRound_nonneg h
        have h2 := sum_le_posSum base
        omega
      have hsome := decLoop_total ord hne base ho hcomp rem.natAbs hnat hcap
      rw [hlen_ord] at hsome
      obtain ⟨y, hy⟩ := Option.isSome_iff_exists.mp hsome
      refine ⟨y, ?_, ?_, ?_, ?_⟩
      · rw [integerize]
        rw [if_neg (by push_neg; intro h'; omega), if_pos ⟨hneg, hn⟩]
        exact hy
      · have hs := decLoop_sum ord _ _ _ _ _ ho hne hy
        rw [hs]
        omega
      · rw [decLoop_length ord _ _ _ _ _ hy, hlenb]
      · intro hc
        omega
    · -- remainder zero: output is the truncation, unchanged
      refine ⟨base, ?_, by omega, hlenb, fun _ => rfl⟩
      rw [integerize]
      rw [if_neg (by omega), if_neg (by omega)]
    · -- increment path
      set ord := sortDescByFrac x (List.range x.length) with hord
      have hperm : ord.Perm (List.range x.length) := sortDescByFrac_perm x _
      have ho : ∀ i ∈ ord, i < base.length := by
        rw [hlenb]; exact order_range_mem_lt hperm
      have hne : ord ≠ [] := order_range_ne_nil hperm hn
      refine ⟨incLoop ord rem.toNat 0 base, ?_, ?_, ?_, ?_⟩
      · rw [integerize]
        rw [if_pos ⟨hpos, hn⟩]
      · rw [incLoop_sum ord _ _ _ ho hne]
        omega
      · rw [incLoop_length, hlenb]
      · intro hc
        omega

/-- Non-negativity: on an entrywise nonnegative curve the remainder is never
negative, so the decrement loop is not entered, the integerizer terminates, and
every output slot is nonnegative. -/
theorem integerize_nonneg (x : List ℚ) (h : ∀ q ∈ x, 0 ≤ q) :
    ∃ y, integerize x = some y ∧ (∀ v ∈ y, 0 ≤ v) ∧ y.sum = pyRound x.sum := by
  have hsum : 0 ≤ x.sum := List.sum_nonneg h
  set base := x.map truncQ with hbase
  have hbnn : ∀ v ∈ base, 0 ≤ v := by
    intro v hv
    obtain ⟨q, hq, rfl⟩ := List.mem_map.mp hv
    exact truncQ_nonneg (h q hq)
  have hEqSum : (List.map truncQ x).sum = base.sum := by rw [hbase]
  set rem : ℤ := pyRound x.sum - base.sum with hrem
  have hrem_nonneg : 0 ≤ rem := by
    have h1 := map_truncQ_sum_le_floor h
    have h2 := floor_le_pyRound x.sum
    omega
  rcases Nat.eq_zero_or_pos x.length with hn | hn
  · have hx : x = [] := List.eq_nil_of_length_eq_zero hn
    subst hx
    refine ⟨[], integerize_nil, by simp, ?_⟩
    norm_num [pyRound]
  · rcases eq_or_lt_of_le hrem_nonneg with hzero | hpos
    · refine ⟨base, ?_, hbnn, by omega⟩
      rw [integerize]
      rw [if_neg (by omega), if_neg (by omega)]
    · set ord := sortDescByFrac x (List.range x.length) with hord
      have hperm : ord.Perm (List.range x.length) := sortDescByFrac_perm x _
      have ho : ∀ i ∈ ord, i < base.length := by
        rw [List.length_map]; exact order_range_mem_lt hperm
      have hne : ord ≠ [] := order_range_ne_nil hperm hn
      refine ⟨incLoop ord rem.toNat 0 base, ?_, ?_, ?_⟩
      · rw [integerize]
        rw [if_pos ⟨hpos, hn⟩]
      · exact incLoop_forall_nonneg ord _ _ _ hbnn
      · rw [incLoop_sum ord _ _ _ ho hne]
        omega

/-! ### Lemmas about the close phase -/

theorem findQualify_none {minS t : ℕ} :
    ∀ {a : List ℕ}, findQualify minS t a = none → ∀ s ∈ a, ¬(s + minS ≤ t) := by
  intro a
  induction a with
  | nil => intro _ s hs; simp at hs
  | cons b bs ih =>
      intro h s hs
      rw [findQualify] at h
      by_cases hb : b + minS ≤ t
      · rw [if_pos hb] at h; cases h
      · rw [if_neg hb] at h
        rcases List.mem_cons.mp hs with rfl | hs'
        · exact hb
        · rcases hfq : findQualify minS t bs with _ | pr
          · exact ih hfq s hs'
          · rw [hfq] at h; cases h

theorem findQualify_some {minS t : ℕ} :
    ∀ {a : List ℕ} {s : ℕ} {rest : List ℕ}, findQualify minS t a = some (s, rest) →
      ∃ l1 l2, a = l1 ++ s :: l2 ∧ rest = l1 ++ l2 ∧ s + minS ≤ t := by
  intro a
  induction a with
  | nil => intro s rest h; cases h
  | cons b bs ih =>
      intro s rest h
      rw [findQualify] at h
      by_cases hb : b + minS ≤ t
      · rw [if_pos hb] at h
        cases h
        exact ⟨[], bs, rfl, rfl, hb⟩
      · rw [if_neg hb] at h
        rcases hfq : findQualify minS t bs with _ | ⟨x, l⟩
        · rw [hfq] at h; cases h
        · rw [hfq] at h
          cases h
          obtain ⟨l1, l2, hbs, hl, hx⟩ := ih hfq
          exact ⟨b :: l1, l2, by rw [hbs]; rfl, by rw [hl]; rfl, hx⟩

theorem findQualify_some_length {minS t : ℕ} {a : List ℕ} {s : ℕ} {rest : List ℕ}
    (h : findQualify minS t a = some (s, rest)) : rest.length + 1 = a.length := by
  obtain ⟨l1, l2, ha, hr, _⟩ := findQualify_some h
  rw [ha, hr]
  simp
  omega

theorem findQualify_some_mem {minS t : ℕ} {a : List ℕ} {s : ℕ} {rest : List ℕ}
    (h : findQualify minS t a = some (s, rest)) :
    s ∈ a ∧ ∀ u ∈ rest, u ∈ a := by
  obtain ⟨l1, l2, ha, hr, _⟩ := findQualify_some h
  subst ha hr
  constructor
  · simp
  · intro u hu
    rcases List.mem_append.mp hu with h1 | h2
    · exact List.mem_append.mpr (Or.inl h1)
    · exact List.mem_append.mpr (Or.inr (List.mem_cons_of_mem s h2))

theorem findQualify_some_countP {minS t : ℕ} {a : List ℕ} {s : ℕ} {rest : List ℕ}
    (p : ℕ → Bool) (h : findQualify minS t a = some (s, rest)) :
    a.countP p = rest.countP p + (if p s then 1 else 0) := by
  obtain ⟨l1, l2, ha, hr, _⟩ := findQualify_some h
  subst ha hr
  rw [List.countP_append, List.countP_append, List.countP_cons]
  omega

theorem closeLoop_len_ge {minS t k : ℕ} :
    ∀ {fuel : ℕ} {a : List ℕ} {out : List Shift}, k ≤ a.length →
      k ≤ (closeLoop minS t k fuel a out).1.length := by
  intro fuel
  induction fuel with
  | zero => intro a out h; exact h
  | succ f ih =>
      intro a out h
      rw [closeLoop]
      by_cases hk : k < a.length
      · rw [if_pos hk]
        rcases hfq : findQualify minS t a with _ | ⟨s, rest⟩
        · exact h
        · have := findQualify_some_length hfq
          exact ih (by omega)
      · rw [if_neg hk]
        exact h

theorem closeLoop_active_mem {minS t k : ℕ} :
    ∀ {fuel : ℕ} {a : List ℕ} {out : List Shift},
      ∀ s ∈ (closeLoop minS t k fuel a out).1, s ∈ a := by
  intro fuel
  induction fuel with
  | zero => intro a out s hs; exact hs
  | succ f ih =>
      intro a out s hs
      rw [closeLoop] at hs
      by_cases hk : k < a.length
      · rw [if_pos hk] at hs
        rcases hfq : findQualify minS t a with _ | ⟨x, rest⟩
        · rw [hfq] at hs; exact hs
        · rw [hfq] at hs
          exact (findQualify_some_mem hfq).2 s (ih s hs)
      · rw [if_neg hk] at hs
        exact hs

theorem closeLoop_out_split {minS t k : ℕ} :
    ∀ {fuel : ℕ} {a : List ℕ} {out : List Shift},
      ∃ d, (closeLoop minS t k fuel a out).2 = out ++ d ∧
        ∀ sh ∈ d, sh.stop = t ∧ sh.start + minS ≤ t ∧ sh.start ∈ a := by
  intro fuel
  induction fuel with
  | zero => intro a out; exact ⟨[], by simp [closeLoop], by simp⟩
  | succ f ih =>
      intro a out
      rw [closeLoop]
      by_cases hk : k < a.length
      · rw [if_pos hk]
        rcases hfq : findQualify minS t a with _ | ⟨s, rest⟩
        · exact ⟨[], by simp, by simp⟩
        · obtain ⟨d, hd, hprop⟩ := @ih rest (out ++ [⟨s, t⟩])
          refine ⟨⟨s, t⟩ :: d, ?_, ?_⟩
          · rw [hd, List.append_assoc]
            rfl
          · intro sh hsh
            rcases List.mem_cons.mp hsh with rfl | hsh'
            · exact ⟨rfl, (findQualify_some hfq).choose_spec.choose_spec.2.2,
                (findQualify_some_mem hfq).1⟩
            · obtain ⟨h1, h2, h3⟩ := hprop sh hsh'
              exact ⟨h1, h2, (findQualify_some_mem hfq).2 _ h3⟩
      · rw [if_neg hk]
        exact ⟨[], by simp, by simp⟩

theorem closeLoop_conserve {minS t k : ℕ} (p : ℕ → Bool) :
    ∀ {fuel : ℕ} {a : List ℕ} {out : List Shift},
      ((closeLoop minS t k fuel a out).2).countP (fun sh => p sh.start)
          + ((closeLoop minS t k fuel a out).1).countP p
        = out.countP (fun sh => p sh.start) + a.countP p := by
  intro fuel
  induction fuel with
  | zero => intro a out; rfl
  | succ f ih =>
      intro a out
      rw [closeLoop]
      by_cases hk : k < a.length
      · rw [if_pos hk]
        rcases hfq : findQualify minS t a with _ | ⟨s, rest⟩
        · rfl
        · rw [ih]
          rw [List.countP_append, findQualify_some_countP p hfq]
          simp only [List.countP_cons, List.countP_nil]
          omega
      · rw [if_neg hk]

/-- If the close phase ends with more entries than required (given enough
fuel), then no remaining entry qualifies for closing: each violates the
minimum-duration requirement. -/
theorem closeLoop_blocked {minS t k : ℕ} :
    ∀ {fuel : ℕ} {a : List ℕ} {out : List Shift}, a.length ≤ fuel →
      k < (closeLoop minS t k fuel a out).1.length →
      ∀ s ∈ (closeLoop minS t k fuel a out).1, ¬(s + minS ≤ t) := by
  intro fuel
  induction fuel with
  | zero =>
      intro a out hlen hk s hs
      have ha : a = [] := List.eq_nil_of_length_eq_zero (by omega)
      subst ha
      simp [closeLoop] at hk
  | succ f ih =>
      intro a out hlen hk
      rw [closeLoop] at hk ⊢
      by_cases hka : k < a.length
      · rw [if_pos hka] at hk ⊢
        rcases hfq : findQualify minS t a with _ | ⟨x, rest⟩
        · exact findQualify_none hfq
        · rw [hfq] at hk
          have := findQualify_some_length hfq
          exact ih (by omega) hk
      · rw [if_neg hka] at hk ⊢
        intro s hs
        simp only [List.length] at hk
        omega

/-! ### Lemmas about the open phase and the slot loop -/

theorem openPhase_length (t k : ℕ) (a : List ℕ) :
    (openPhase t k a).length = max a.length k := by
  simp only [openPhase, List.length_append, List.length_replicate]
  omega

theorem openPhase_mem {t k : ℕ} {a : List ℕ} {s : ℕ} (h : s ∈ openPhase t k a) :
    s ∈ a ∨ s = t := by
  rcases List.mem_append.mp h with h1 | h2
  · exact Or.inl h1
  · exact Or.inr (List.eq_of_mem_replicate h2)

theorem countP_replicate (p : ℕ → Bool) (n t : ℕ) :
    (List.replicate n t).countP p = if p t then n else 0 := by
  induction n with
  | zero => simp
  | succ m ih =>
      rw [List.replicate_succ, List.countP_cons, ih]
      by_cases hp : p t
      · simp [hp]
      · simp [hp]

theorem openPhase_countP {t : ℕ} (k : ℕ) (a : List ℕ) (p : ℕ → Bool)
    (hp : p t = false) : (openPhase t k a).countP p = a.countP p := by
  rw [openPhase, List.countP_append, countP_replicate, hp]
  simp

theorem synthStep_len_ge (minS t k : ℕ) (a : List ℕ) (out : List Shift) :
    k ≤ (synthStep minS t k a out).1.length :=
  closeLoop_len_ge (by rw [openPhase_length]; omega)

theorem synthStep_active_mem {minS t k : ℕ} {a : List ℕ} {out : List Shift} :
    ∀ s ∈ (synthStep minS t k a out).1, s ∈ a ∨ s = t :=
  fun s hs => openPhase_mem (closeLoop_active_mem s hs)

theorem synthStep_out_split (minS t k : ℕ) (a : List ℕ) (out : List Shift) :
    ∃ d, (synthStep minS t k a out).2 = out ++ d ∧
      ∀ sh ∈ d, sh.stop = t ∧ sh.start + minS ≤ t ∧ (sh.start ∈ a ∨ sh.start = t) := by
  obtain ⟨d, hd, hp⟩ := @closeLoop_out_split minS t k (openPhase t k a).length
    (openPhase t k a) out
  exact ⟨d, hd, fun sh hsh => ⟨(hp sh hsh).1, (hp sh hsh).2.1,
    openPhase_mem (hp sh hsh).2.2⟩⟩

theorem synthStep_conserve (minS t k : ℕ) (a : List ℕ) (out : List Shift)
    (p : ℕ → Bool) (hp : p t = false) :
    ((synthStep minS t k a out).2).countP (fun sh => p sh.start)
        + ((synthStep minS t k a out).1).countP p
      = out.countP (fun sh => p sh.start) + a.countP p := by
  rw [synthStep, closeLoop_conserve p, openPhase_countP k a p hp]

theorem synthRun_append (minS : ℕ) (ks1 ks2 : List ℕ) :
    ∀ (t : ℕ) (a : List ℕ) (out : List Shift),
      synthRun minS t (ks1 ++ ks2) a out
        = synthRun minS (t + ks1.length) ks2
            (synthRun minS t ks1 a out).1 (synthRun minS t ks1 a out).2 := by
  induction ks1 with
  | nil => intro t a out; rfl
  | cons k ks ih =>
      intro t a out
      rw [List.cons_append, synthRun, synthRun, ih]
      have harg : t + 1 + ks.length = t + (k :: ks).length := by
        simp
        omega
      rw [harg]

theorem synthRun_active_mem (minS : ℕ) (ks : List ℕ) :
    ∀ (t : ℕ) (a : List ℕ) (out : List Shift),
      ∀ s ∈ (synthRun minS t ks a out).1, s ∈ a ∨ (t ≤ s ∧ s < t + ks.length) := by
  induction ks with
  | nil => intro t a out s hs; exact Or.inl hs
  | cons k ks ih =>
      intro t a out s hs
      rw [synthRun] at hs
      rcases ih (t + 1) _ _ s hs with h1 | h2
      · rcases synthStep_active_mem s h1 with h3 | h3
        · exact Or.inl h3
        · subst h3
          right
          constructor
          · omega
          · simp only [List.length_cons]
            omega
      · right
        simp only [List.length_cons]
        omega

theorem synthRun_out_split (minS : ℕ) (ks : List ℕ) :
    ∀ (t : ℕ) (a : List ℕ) (out : List Shift),
      ∃ d, (synthRun minS t ks a out).2 = out ++ d ∧
        ∀ sh ∈ d, t ≤ sh.stop ∧ sh.stop < t + ks.length ∧
          sh.start + minS ≤ sh.stop ∧ (sh.start ∈ a ∨ t ≤ sh.start) := by
  induction ks with
  | nil => intro t a out; exact ⟨[], by simp [synthRun], by simp⟩
  | cons k ks ih =>
      intro t a out
      obtain ⟨d1, hd1, hp1⟩ := synthStep_out_split minS t k a out
      obtain ⟨d2, hd2, hp2⟩ := ih (t + 1) (synthStep minS t k a out).1
        (synthStep minS t k a out).2
      refine ⟨d1 ++ d2, ?_, ?_⟩
      · rw [synthRun, hd2, hd1, List.append_assoc]
      · intro sh hsh
        rcases List.mem_append.mp hsh with h1 | h2
        · obtain ⟨hstop, hmin, hstart⟩ := hp1 sh h1
          refine ⟨by omega, by simp only [List.length_cons]; omega, by omega, ?_⟩
          rcases hstart with h | h
          · exact Or.inl h
          · exact Or.inr (by omega)
        · obtain ⟨hstop, hstop2, hmin, hstart⟩ := hp2 sh h2
          refine ⟨by omega, by simp only [List.length_cons]; omega, hmin, ?_⟩
          rcases hstart with h | h
          · rcases synthStep_active_mem _ h with h3 | h3
            · exact Or.inl h3
            · exact Or.inr (by omega)
          · exact Or.inr (by omega)

theorem synthRun_conserve (minS : ℕ) (ks : List ℕ) (p : ℕ → Bool) :
    ∀ (t : ℕ) (a : List ℕ) (out : List Shift), (∀ u, t ≤ u → p u = false) →
      ((synthRun minS t ks a out).2).countP (fun sh => p sh.start)
          + ((synthRun minS t ks a out).1).countP p
        = out.countP (fun sh => p sh.start) + a.countP p := by
  induction ks with
  | nil => intro t a out _; rfl
  | cons k ks ih =>
      intro t a out hp
      rw [synthRun]
      rw [ih (t + 1) _ _ (fun u hu => hp u (by omega))]
      exact synthStep_conserve minS t k a out p (hp t (le_refl t))

/-! ### Lemmas about `nEnd` and run decomposition -/

theorem lastPosSucc_le (l : List ℕ) : lastPosSucc l ≤ l.length := by
  induction l with
  | nil => exact le_refl 0
  | cons k ks ih =>
      rw [lastPosSucc]
      by_cases hr : lastPosSucc ks = 0
      · rw [if_pos hr]
        split <;> simp
      · rw [if_neg hr]
        simp only [List.length_cons]
        omega

theorem getD_zero_of_lastPosSucc_le :
    ∀ {l : List ℕ} {τ : ℕ}, lastPosSucc l ≤ τ → l.getD τ 0 = 0 := by
  intro l
  induction l with
  | nil => intro τ _; simp
  | cons k ks ih =>
      intro τ h
      rw [lastPosSucc] at h
      by_cases hr : lastPosSucc ks = 0
      · rw [if_pos hr] at h
        by_cases hk : 0 < k
        · rw [if_pos hk] at h
          cases τ with
          | zero => omega
          | succ τ' => exact ih (by omega)
        · cases τ with
          | zero =>
              simp only [List.getD_cons_zero]
              omega
          | succ τ' => exact ih (by omega)
      · rw [if_neg hr] at h
        cases τ with
        | zero => omega
        | succ τ' => exact ih (by omega)

theorem lt_nEnd_of_getD_pos {need : List ℕ} {τ : ℕ} (h : 0 < need.getD τ 0) :
    τ < nEnd need := by
  have h1 : ¬(lastPosSucc need ≤ τ) := by
    intro hc
    rw [getD_zero_of_lastPosSucc_le hc] at h
    omega
  rw [nEnd, if_neg (by omega)]
  omega

theorem nEnd_le_length (need : List ℕ) : nEnd need ≤ need.length := by
  rw [nEnd]
  split
  · exact le_refl _
  · exact lastPosSucc_le need

theorem getD_zero_of_nEnd_le {need : List ℕ} {τ : ℕ} (hτ : τ < need.length)
    (h : nEnd need ≤ τ) : need.getD τ 0 = 0 := by
  by_contra hc
  have hpos : 0 < need.getD τ 0 := by omega
  have := lt_nEnd_of_getD_pos hpos
  omega

theorem synthRun_split (minS : ℕ) (need : List ℕ) (j : ℕ) (hj : j ≤ need.length) :
    synthRun minS 0 need [] [] =
      synthRun minS j (need.drop j)
        (synthRun minS 0 (need.take j) [] []).1 (synthRun minS 0 (need.take j) [] []).2 := by
  conv_lhs => rw [← List.take_append_drop j need]
  rw [synthRun_append]
  have h0 : 0 + (need.take j).length = j := by
    rw [List.length_take]
    omega
  rw [h0]

theorem activeBefore_lt {minS : ℕ} {need : List ℕ} {j : ℕ} :
    ∀ s ∈ activeBefore minS need j, s < j := by
  intro s hs
  rcases synthRun_active_mem minS (need.take j) 0 [] [] s hs with h | h
  · simp at h
  · have : (need.take j).length ≤ j := by
      rw [List.length_take]
      omega
    omega

theorem activeAfter_le {minS : ℕ} {need : List ℕ} {τ : ℕ} :
    ∀ s ∈ activeAfter minS need τ, s ≤ τ := by
  intro s hs
  rcases synthRun_active_mem minS (need.take (τ + 1)) 0 [] [] s hs with h | h
  · simp at h
  · have : (need.take (τ + 1)).length ≤ τ + 1 := by
      rw [List.length_take]
      omega
    omega

theorem take_succ_getD (need : List ℕ) (j : ℕ) (hj : j < need.length) :
    need.take (j + 1) = need.take j ++ [need.getD j 0] := by
  rw [List.take_succ, List.getElem?_eq_getElem hj, List.getD_eq_getElem need 0 hj]
  rfl

theorem activeAfter_eq_step (minS : ℕ) (need : List ℕ) (j : ℕ) (hj : j < need.length) :
    activeAfter minS need j =
      (synthStep minS j (need.getD j 0) (activeBefore minS need j)
        (synthRun minS 0 (need.take j) [] []).2).1 := by
  rw [activeAfter, take_succ_getD need j hj, synthRun_append]
  have h0 : 0 + (need.take j).length = j := by
    rw [List.length_take]
    omega
  rw [h0]
  rfl

theorem activeAfter_len_ge (minS : ℕ) (need : List ℕ) (j : ℕ) (hj : j < need.length) :
    need.getD j 0 ≤ (activeAfter minS need j).length := by
  rw [activeAfter_eq_step minS need j hj]
  exact synthStep_len_ge _ _ _ _ _

/-- Every entry still open after the whole slot loop reaches the window end
once extended by `max (s + minShift, neededEnd)`: either the final slot still
demands staff (so `neededEnd` is the window end), or the entry was blocked at
the final slot by the minimum-duration requirement (so `s + minShift` exceeds
the window end). -/
theorem dayend_reaches_end (minS : ℕ) (need : List ℕ) :
    ∀ s ∈ (synthRun minS 0 need [] []).1, need.length ≤ max (s + minS) (nEnd need) := by
  intro s hs
  rcases List.eq_nil_or_concat need with rfl | ⟨_, _, hcon⟩
  · simp [synthRun] at hs
  · have hn : 0 < need.length := by rw [hcon]; simp
    set j := need.length - 1 with hjdef
    have hfull : need.take (j + 1) = need := by
      have : j + 1 = need.length := by omega
      rw [this, List.take_length]
    have hrun : (synthRun minS 0 need [] []).1 = activeAfter minS need j := by
      rw [activeAfter, hfull]
    rw [hrun] at hs
    by_cases hk : 0 < need.getD j 0
    · have h1 := lt_nEnd_of_getD_pos hk
      have h2 := nEnd_le_length need
      omega
    · rw [activeAfter_eq_step minS need j (by omega)] at hs
      have hk0 : need.getD j 0 = 0 := by omega
      rw [hk0] at hs
      have hblock := @closeLoop_blocked minS j 0
        (openPhase j 0 (activeBefore minS need j)).length
        (openPhase j 0 (activeBefore minS need j))
        ((synthRun minS 0 (need.take j) [] []).2)
        (le_refl _) (by
          have : 0 < (synthStep minS j 0 (activeBefore minS need j)
              (synthRun minS 0 (need.take j) [] []).2).1.length :=
            List.length_pos.mpr (List.ne_nil_of_mem hs)
          exact this)
        s hs
      omega

/-! ### Coverage accounting -/

/-- Accounting identity for coverage: every shift covering an in-window slot
`τ` corresponds to an entry of the `active` list at the end of slot `τ`'s
processing.  Emissions at slots `≤ τ` end at or before `τ` and never cover it;
emissions at later slots and day-end closures cover `τ` exactly when their
start is `≤ τ`, and conservation of starts equates their number with
`|active after τ|`. -/
theorem coverage_bounds (minS : ℕ) (need : List ℕ) (τ : ℕ) (hτn : τ < need.length) :
    coverage (buildShifts minS need) τ ≤ (activeAfter minS need τ).length ∧
      (τ < nEnd need →
        coverage (buildShifts minS need) τ = (activeAfter minS need τ).length) := by
  have hsplit := synthRun_split minS need (τ + 1) (by omega)
  obtain ⟨dB, hdB, hpB⟩ := synthRun_out_split minS (need.take (τ + 1)) 0 [] []
  obtain ⟨dA, hdA, hpA⟩ := synthRun_out_split minS (need.drop (τ + 1)) (τ + 1)
    (synthRun minS 0 (need.take (τ + 1)) [] []).1
    (synthRun minS 0 (need.take (τ + 1)) [] []).2
  have hstopB : ∀ sh ∈ (synthRun minS 0 (need.take (τ + 1)) [] []).2, sh.stop ≤ τ := by
    intro sh hsh
    rw [hdB] at hsh
    have hlen : (need.take (τ + 1)).length ≤ τ + 1 := by
      rw [List.length_take]
      omega
    have := hpB sh (by simpa using hsh)
    omega
  have hconsv := synthRun_conserve minS (need.drop (τ + 1)) (fun u => decide (u ≤ τ))
    (τ + 1) (synthRun minS 0 (need.take (τ + 1)) [] []).1
    (synthRun minS 0 (need.take (τ + 1)) [] []).2
    (fun u hu => by simp; omega)
  have hcountA : ((synthRun minS 0 (need.take (τ + 1)) [] []).1).countP
      (fun u => decide (u ≤ τ)) = (activeAfter minS need τ).length := by
    rw [List.countP_eq_length.mpr]
    · rfl
    · intro s hs
      simpa using activeAfter_le s hs
  have hcov : coverage (buildShifts minS need) τ
      = (dA.countP fun sh => decide (sh.start ≤ τ) && decide (τ < sh.stop))
        + (((synthRun minS 0 need [] []).1).countP
            fun s => decide (s ≤ τ) && decide (τ < min (max (s + minS) (nEnd need))
              need.length)) := by
    rw [coverage, buildShifts, List.countP_append, List.countP_map]
    have h2 : (synthRun minS 0 need [] []).2
        = (synthRun minS 0 (need.take (τ + 1)) [] []).2 ++ dA := by
      rw [hsplit, hdA]
    rw [h2, List.countP_append]
    have hzero : ((synthRun minS 0 (need.take (τ + 1)) [] []).2).countP
        (fun sh => decide (sh.start ≤ τ) && decide (τ < sh.stop)) = 0 := by
      rw [List.countP_eq_zero]
      intro sh hsh
      have := hstopB sh hsh
      simp only [Bool.and_eq_true, decide_eq_true_eq, not_and]
      omega
    rw [hzero]
    simp only [Nat.zero_add, Function.comp_def]
  have hdAcount : (dA.countP fun sh => decide (sh.start ≤ τ) && decide (τ < sh.stop))
      = dA.countP fun sh => decide (sh.start ≤ τ) := by
    refine List.countP_congr (fun sh hsh => ?_)
    have := (hpA sh hsh).1
    simp only [Bool.and_eq_true, decide_eq_true_eq]
    constructor
    · intro hx; exact hx.1
    · intro hx; exact ⟨hx, by omega⟩
  have hkey : dA.countP (fun sh => decide (sh.start ≤ τ))
      + ((synthRun minS 0 need [] []).1).countP (fun u => decide (u ≤ τ))
      = (activeAfter minS need τ).length := by
    have hfull2 : (synthRun minS 0 need [] []).2
        = (synthRun minS 0 (need.take (τ + 1)) [] []).2 ++ dA := by
      rw [hsplit, hdA]
    have hfull1 : (synthRun minS 0 need [] []).1
        = (synthRun minS (τ + 1) (need.drop (τ + 1))
            (synthRun minS 0 (need.take (τ + 1)) [] []).1
            (synthRun minS 0 (need.take (τ + 1)) [] []).2).1 := by
      rw [hsplit]
    rw [hfull1]
    rw [hdA, List.countP_append] at hconsv
    simp only [] at hconsv
    rw [← hcountA]
    omega
  constructor
  · rw [hcov]
    have hle2 : ((synthRun minS 0 need [] []).1).countP
        (fun s => decide (s ≤ τ) && decide (τ < min (max (s + minS) (nEnd need))
          need.length))
        ≤ ((synthRun minS 0 need [] []).1).countP (fun u => decide (u ≤ τ)) := by
      refine List.countP_mono_left (fun s _ h => ?_)
      simp only [Bool.and_eq_true, decide_eq_true_eq] at h ⊢
      exact h.1
    omega
  · intro hτ
    rw [hcov, hdAcount]
    have hstopD : ((synthRun minS 0 need [] []).1).countP
        (fun s => decide (s ≤ τ) && decide (τ < min (max (s + minS) (nEnd need))
          need.length))
        = ((synthRun minS 0 need [] []).1).countP (fun u => decide (u ≤ τ)) := by
      refine List.countP_congr (fun s hs => ?_)
      have hend := nEnd_le_length need
      have hstop : τ < min (max (s + minS) (nEnd need)) need.length := by
        have h1 : nEnd need ≤ max (s + minS) (nEnd need) := le_max_right _ _
        omega
      simp only [Bool.and_eq_true, decide_eq_true_eq]
      constructor
      · intro hx; exact hx.1
      · intro hx; exact ⟨hx, hstop⟩
    rw [hstopD]
    omega

/-- Shift starts per slot: the synthesizer opens exactly
`required - |active|` (truncated at 0) shifts in slot `j`, all starting at `j`;
there is no per-slot cap and no backlog.  Every opened entry eventually becomes
exactly one emitted shift (in-loop or at day-end), so the count of emitted
shifts starting at `j` is that same number. -/
theorem startsAt_count (minS : ℕ) (need : List ℕ) (j : ℕ) (hj : j < need.length) :
    (buildShifts minS need).countP (fun sh => decide (sh.start = j))
      = need.getD j 0 - (activeBefore minS need j).length := by
  have hsplit := synthRun_split minS need j (by omega)
  have hdrop : need.drop j = need.getD j 0 :: need.drop (j + 1) := by
    rw [List.drop_eq_getElem_cons hj, List.getD_eq_getElem need 0 hj]
  obtain ⟨dB, hdB, hpB⟩ := synthRun_out_split minS (need.take j) 0 [] []
  have hstartB : ∀ sh ∈ (synthRun minS 0 (need.take j) [] []).2, sh.start < j := by
    intro sh hsh
    rw [hdB] at hsh
    have hlen : (need.take j).length ≤ j := by
      rw [List.length_take]
      omega
    have := hpB sh (by simpa using hsh)
    omega
  set aB := (synthRun minS 0 (need.take j) [] []).1 with haB
  set oB := (synthRun minS 0 (need.take j) [] []).2 with hoB
  set k := need.getD j 0 with hk
  have hfull : synthRun minS 0 need [] []
      = synthRun minS (j + 1) (need.drop (j + 1))
          (synthStep minS j k aB oB).1 (synthStep minS j k aB oB).2 := by
    rw [hsplit, hdrop, synthRun]
  have hconsv := synthRun_conserve minS (need.drop (j + 1)) (fun u => decide (u = j))
    (j + 1) (synthStep minS j k aB oB).1 (synthStep minS j k aB oB).2
    (fun u hu => by simp; omega)
  have hopen : (openPhase j k aB).countP (fun u => decide (u = j)) = k - aB.length := by
    rw [openPhase, List.countP_append, countP_replicate]
    have hzero : aB.countP (fun u => decide (u = j)) = 0 := by
      rw [List.countP_eq_zero]
      intro s hs
      have := activeBefore_lt s hs
      simp
      omega
    rw [hzero]
    simp
  have hstep : ((synthStep minS j k aB oB).2).countP (fun sh => decide (sh.start = j))
      + ((synthStep minS j k aB oB).1).countP (fun u => decide (u = j))
      = oB.countP (fun sh => decide (sh.start = j)) + (k - aB.length) := by
    have hcc : ((closeLoop minS j k (openPhase j k aB).length (openPhase j k aB) oB).2).countP
          (fun sh => decide (sh.start = j))
        + ((closeLoop minS j k (openPhase j k aB).length (openPhase j k aB) oB).1).countP
          (fun u => decide (u = j))
        = oB.countP (fun sh => decide (sh.start = j))
          + (openPhase j k aB).countP (fun u => decide (u = j)) :=
      closeLoop_conserve (fun u => decide (u = j))
    rw [hopen] at hcc
    exact hcc
  have hoBzero : oB.countP (fun sh => decide (sh.start = j)) = 0 := by
    rw [List.countP_eq_zero]
    intro sh hsh
    have := hstartB sh hsh
    simp
    omega
  rw [buildShifts, List.countP_append, List.countP_map]
  rw [hfull]
  simp only [] at hconsv ⊢
  have hcomp : (List.countP ((fun sh => decide (sh.start = j)) ∘ fun s =>
        { start := s, stop := ((s + minS) ⊔ nEnd need) ⊓ need.length : Shift })
      (synthRun minS (j + 1) (need.drop (j + 1))
        (synthStep minS j k aB oB).1 (synthStep minS j k aB oB).2).1)
      = (List.countP (fun u => decide (u = j))
          (synthRun minS (j + 1) (need.drop (j + 1))
            (synthStep minS j k aB oB).1 (synthStep minS j k aB oB).2).1) := by
    rfl
  rw [hcomp]
  have hab : activeBefore minS need j = aB := rfl
  rw [hab]
  omega

theorem getD_zipWith_max {y b : List ℤ} (hlen : y.length = b.length) :
    ∀ {i : ℕ}, i < y.length →
      (y.zipWith max b).getD i 0 = max (y.getD i 0) (b.getD i 0) := by
  induction y generalizing b with
  | nil => intro i hi; simp at hi
  | cons v vs ih =>
      cases b with
      | nil => simp at hlen
      | cons w ws =>
          intro i hi
          cases i with
          | zero => simp
          | succ i' =>
              simp only [List.zipWith_cons_cons, List.getD_cons_succ]
              exact ih (by simpa using hlen) (by simpa using hi)

theorem sum_le_zipWith_max : ∀ {y b : List ℤ}, y.length = b.length →
    y.sum ≤ (y.zipWith max b).sum := by
  intro y
  induction y with
  | nil => intro b _; simp
  | cons v vs ih =>
      intro b hlen
      cases b with
      | nil => simp at hlen
      | cons w ws =>
          simp only [List.zipWith_cons_cons, List.sum_cons]
          have h1 : v ≤ max v w := le_max_left v w
          have h2 := ih (b := ws) (by simpa using hlen)
          omega

theorem sum_lt_zipWith_max : ∀ {y b : List ℤ}, y.length = b.length →
    (∃ i, i < y.length ∧ y.getD i 0 < b.getD i 0) →
    y.sum < (y.zipWith max b).sum := by
  intro y
  induction y with
  | nil =>
      intro b _ h
      obtain ⟨i, hi, _⟩ := h
      simp at hi
  | cons v vs ih =>
      intro b hlen h
      cases b with
      | nil => simp at hlen
      | cons w ws =>
          simp only [List.zipWith_cons_cons, List.sum_cons]
          obtain ⟨i, hi, hvb⟩ := h
          cases i with
          | zero =>
              simp only [List.getD_cons_zero] at hvb
              have h1 : v < max v w := by omega
              have h2 := sum_le_zipWith_max (y := vs) (b := ws) (by simpa using hlen)
              omega
          | succ i' =>
              simp only [List.getD_cons_succ] at hvb
              have h1 : v ≤ max v w := le_max_left v w
              have h2 := ih (b := ws) (by simpa using hlen)
                ⟨i', by simpa using hi, hvb⟩
              omega

/-! ### Claim theorems -/

/-- C1 (counterexample): on the curve `[-1/2, 1/2]` the sum is `0 ≥ 0` and the
remainder is `0`, but the integerizer returns `[0, 0]` — the elementwise
truncation toward zero — and not the elementwise floor `[-1, 0]` the claim
demands. -/
theorem claim_C1_counterexample :
    integerize [-(1 : ℚ)/2, 1/2] = some [0, 0] ∧
      0 ≤ ([-(1 : ℚ)/2, 1/2] : List ℚ).sum ∧
      pyRound ([-(1 : ℚ)/2, 1/2] : List ℚ).sum
        = (([-(1 : ℚ)/2, 1/2] : List ℚ).map truncQ).sum ∧
      ([0, 0] : List ℤ) ≠ [⌊-(1 : ℚ)/2⌋, ⌊(1 : ℚ)/2⌋] := by
  refine ⟨?_, by norm_num, ?_, by norm_num⟩
  · norm_num [integerize, incLoop, sortDescByFrac, sortAscByFrac, fracKey, truncQ, pyRound,
      ceil_as_floor, List.insertionSort, List.orderedInsert, List.range_succ]
  · norm_num [pyRound, truncQ, ceil_as_floor]

/-- C1 (amended): for every real-valued curve `x` with `sum(x) ≥ 0` the
integerization terminates and produces `y` with `sum(y) = round(sum(x))`
exactly, on both the increment and decrement paths; when the remainder is `0`
it returns the elementwise truncation toward zero of `x` unchanged (which is
the elementwise floor whenever all entries are nonnegative, but not for
negative fractional entries). -/
theorem claim_C1 (x : List ℚ) (h : 0 ≤ x.sum) :
    ∃ y, integerize x = some y ∧ y.sum = pyRound x.sum ∧
      (pyRound x.sum = (x.map truncQ).sum → y = x.map truncQ) := by
  obtain ⟨y, h1, h2, _, h4⟩ := integerize_sum_eq x h
  exact ⟨y, h1, h2, h4⟩

theorem claim_C1_witness :
    0 ≤ ([(1 : ℚ)/2, 9/20] : List ℚ).sum ∧
      (∃ y, integerize [(1 : ℚ)/2, 9/20] = some y ∧
        y.sum = pyRound ([(1 : ℚ)/2, 9/20] : List ℚ).sum ∧
        (pyRound ([(1 : ℚ)/2, 9/20] : List ℚ).sum
            = (([(1 : ℚ)/2, 9/20] : List ℚ).map truncQ).sum →
          y = ([(1 : ℚ)/2, 9/20] : List ℚ).map truncQ)) :=
  ⟨by norm_num, claim_C1 [(1 : ℚ)/2, 9/20] (by norm_num)⟩

/-- C2: for every in-window slot `τ`, the number of open shifts covering `τ` is
at least the required headcount (overcapacity never causes undercapacity), and
when the curve is feasible — no minimum-duration conflict ever forces a
deferred close — the number of emitted shifts covering `τ` equals the integer
demand at `τ` exactly. -/
theorem claim_C2 (need : List ℕ) (τ : ℕ) (hτ : τ < need.length) :
    need.getD τ 0 ≤ coverage (buildShifts minShiftSlots need) τ ∧
      (Feasible minShiftSlots need →
        coverage (buildShifts minShiftSlots need) τ = need.getD τ 0) := by
  constructor
  · by_cases hk : 0 < need.getD τ 0
    · have h1 := lt_nEnd_of_getD_pos hk
      have h2 := (coverage_bounds minShiftSlots need τ hτ).2 h1
      have h3 := activeAfter_len_ge minShiftSlots need τ hτ
      omega
    · omega
  · intro hf
    have hle := (coverage_bounds minShiftSlots need τ hτ).1
    have hfa := hf τ hτ
    by_cases hk : 0 < need.getD τ 0
    · rw [(coverage_bounds minShiftSlots need τ hτ).2 (lt_nEnd_of_getD_pos hk), hfa]
    · omega

theorem claim_C2_witness :
    Feasible minShiftSlots [1, 1] ∧
      (([1, 1] : List ℕ).getD 0 0 ≤ coverage (buildShifts minShiftSlots [1, 1]) 0 ∧
        (Feasible minShiftSlots [1, 1] →
          coverage (buildShifts minShiftSlots [1, 1]) 0 = ([1, 1] : List ℕ).getD 0 0)) :=
  ⟨by decide, claim_C2 [1, 1] 0 (by decide)⟩

/-- C3: every produced shift ends no later than the staffing-window end, and
every shift that is not clamped to the window end at day-end finalization is at
least `minShiftSlots` (3 hours) long. -/
theorem claim_C3 (need : List ℕ) :
    ∀ sh ∈ buildShifts minShiftSlots need,
      sh.stop ≤ need.length ∧
        (sh.start + minShiftSlots ≤ sh.stop ∨ sh.stop = need.length) := by
  intro sh hsh
  rw [buildShifts] at hsh
  rcases List.mem_append.mp hsh with h1 | h2
  · obtain ⟨d, hd, hp⟩ := synthRun_out_split minShiftSlots need 0 [] []
    rw [hd] at h1
    have := hp sh (by simpa using h1)
    exact ⟨by omega, Or.inl (by omega)⟩
  · obtain ⟨s, hs, rfl⟩ := List.mem_map.mp h2
    have hde := dayend_reaches_end minShiftSlots need s hs
    exact ⟨min_le_right _ _, Or.inr (by simp only []; omega)⟩

theorem claim_C3_witness :
    (⟨0, 2⟩ : Shift) ∈ buildShifts minShiftSlots [1, 0] ∧
      ((⟨0, 2⟩ : Shift).stop ≤ ([1, 0] : List ℕ).length ∧
        ((⟨0, 2⟩ : Shift).start + minShiftSlots ≤ (⟨0, 2⟩ : Shift).stop ∨
          (⟨0, 2⟩ : Shift).stop = ([1, 0] : List ℕ).length)) :=
  ⟨by decide, claim_C3 [1, 0] ⟨0, 2⟩ (by decide)⟩

/-- C4: every entry still open after the last slot is emitted as a day-end
shift with `end = max(start + minShift, neededEnd)` clamped to the window end,
and that end always equals the staffing window's closing boundary exactly. -/
theorem claim_C4 (need : List ℕ) :
    ∀ s ∈ (synthRun minShiftSlots 0 need [] []).1,
      (⟨s, min (max (s + minShiftSlots) (nEnd need)) need.length⟩ : Shift)
          ∈ buildShifts minShiftSlots need ∧
        min (max (s + minShiftSlots) (nEnd need)) need.length = need.length := by
  intro s hs
  constructor
  · rw [buildShifts]
    exact List.mem_append.mpr (Or.inr (List.mem_map.mpr ⟨s, hs, rfl⟩))
  · have := dayend_reaches_end minShiftSlots need s hs
    omega

theorem claim_C4_witness :
    0 ∈ (synthRun minShiftSlots 0 [1, 1] [] []).1 ∧
      ((⟨0, min (max (0 + minShiftSlots) (nEnd [1, 1])) ([1, 1] : List ℕ).length⟩ : Shift)
          ∈ buildShifts minShiftSlots [1, 1] ∧
        min (max (0 + minShiftSlots) (nEnd [1, 1])) ([1, 1] : List ℕ).length
          = ([1, 1] : List ℕ).length) :=
  ⟨by decide, claim_C4 [1, 1] 0 (by decide)⟩

/-- C5 (counterexample): on the integer curve `[1, 0]` the pipeline's planned
hours are `sum(need)/4 = 1/4` hour, while the emitted shifts (one shift `(0,2)`,
kept open by the minimum-duration rule and closed at day end) total `2` slots
= `1/2` hour: planned hours are not the sum of the shift durations. -/
theorem claim_C5_counterexample :
    geplandeUren [1, 0] = 1/4 ∧
      totalShiftSlots (buildShifts minShiftSlots [1, 0]) = 2 ∧
      geplandeUren [1, 0]
        ≠ (totalShiftSlots (buildShifts minShiftSlots [1, 0]) : ℚ) / 4 := by
  have h2 : totalShiftSlots (buildShifts minShiftSlots [1, 0]) = 2 := by decide
  refine ⟨by norm_num [geplandeUren, plannedBlocks], h2, ?_⟩
  rw [h2]
  norm_num [geplandeUren, plannedBlocks]

/-- C5 (amended): the KPI aggregator computes planned hours as the sum of the
final integer demand curve divided by 4 (quarter-hour blocks to hours) — not
from the emitted shift durations — planned cost as planned hours times the
blended rate, and the planned cost percentage as cost / forecast × 100, the
forecast being nonzero on every successful run. -/
theorem claim_C5 (omzet rate doel : ℚ) (shares : List ℚ) (b : List ℤ)
    (res : OptResult)
    (h : optimize (some omzet) rate doel shares b = .ok (some res)) :
    res.uren = (res.need.sum : ℚ) / 4 ∧ res.kosten = res.uren * rate ∧
      omzet ≠ 0 ∧ res.pct = some (res.kosten / omzet * 100) := by
  simp only [optimize] at h
  by_cases h0 : omzet = 0
  · rw [if_pos h0] at h
    simp at h
  · rw [if_neg h0] at h
    by_cases hr : rate ≤ 0
    · rw [if_pos hr] at h
      simp at h
    · rw [if_neg hr] at h
      rcases hI : integerize (shares.map (fun a =>
          if 0 < shares.sum then pyRound2 (a / shares.sum * (doel * omzet / rate) * 4)
          else 0)) with _ | y
      · rw [hI] at h
        simp at h
      · rw [hI] at h
        injection h with h1
        injection h1 with h2
        subst h2
        refine ⟨rfl, rfl, h0, ?_⟩
        simp only [geplandePct, if_neg h0]

theorem claim_C5_witness :
    optimize (some 100) 10 (23/100) [1] [0]
        = .ok (some ⟨[(46 : ℚ)/5], [9], buildShifts minShiftSlots [9], 9/4, 45/2,
            some (45/2)⟩) ∧
      ((⟨[(46 : ℚ)/5], [9], buildShifts minShiftSlots [9], 9/4, 45/2,
            some (45/2)⟩ : OptResult).uren
          = ((([9] : List ℤ).sum : ℚ)) / 4 ∧
        (⟨[(46 : ℚ)/5], [9], buildShifts minShiftSlots [9], 9/4, 45/2,
            some (45/2)⟩ : OptResult).kosten
          = (⟨[(46 : ℚ)/5], [9], buildShifts minShiftSlots [9], 9/4, 45/2,
              some (45/2)⟩ : OptResult).uren * 10 ∧
        (100 : ℚ) ≠ 0 ∧
        (⟨[(46 : ℚ)/5], [9], buildShifts minShiftSlots [9], 9/4, 45/2,
            some (45/2)⟩ : OptResult).pct
          = some ((⟨[(46 : ℚ)/5], [9], buildShifts minShiftSlots [9], 9/4, 45/2,
              some (45/2)⟩ : OptResult).kosten / 100 * 100)) := by
  have h : optimize (some 100) 10 (23/100) [1] [0]
      = .ok (some ⟨[(46 : ℚ)/5], [9], buildShifts minShiftSlots [9], 9/4, 45/2,
          some (45/2)⟩) := by
    norm_num [optimize, integerize, incLoop, sortDescByFrac, fracKey, truncQ, pyRound2,
      pyRound, ceil_as_floor, applyBaseline, geplandeUren, plannedBlocks, geplandeKosten,
      geplandePct, Int.toNat_ofNat, List.insertionSort, List.orderedInsert,
      List.range_succ, -Int.self_sub_floor]
    decide
  exact ⟨h, claim_C5 100 10 (23/100) [1] [0] _ h⟩

/-- C6 (counterexample): a strictly negative forecast revenue is not rejected —
`optimize` with forecast `-1` runs to completion and returns a success result,
although the claim demands an InvalidForecast failure for every forecast
`≤ 0`. -/
theorem claim_C6_counterexample :
    ((-1 : ℚ) ≤ 0) ∧
      optimize (some (-1)) 10 (23/100) [1] [0]
        = .ok (some ⟨[-(9 : ℚ)/100], [0], [], 0, 0, some 0⟩) := by
  refine ⟨by norm_num, ?_⟩
  norm_num [optimize, integerize, pyRound2, pyRound, truncQ, ceil_as_floor, applyBaseline,
    geplandeUren, plannedBlocks, geplandeKosten, geplandePct, buildShifts, synthRun,
    synthStep, openPhase, closeLoop, nEnd, lastPosSucc, -Int.self_sub_floor]

/-- C6 (amended): the pipeline fails with InvalidForecast when the forecast is
absent or exactly zero (negative forecasts are not rejected), and with
InvalidRate when the forecast is present and nonzero but the blended rate is
`≤ 0`; both checks precede demand construction and shift synthesis, and a
failure produces no output at all. -/
theorem claim_C6 :
    (∀ (rate doel : ℚ) (shares : List ℚ) (b : List ℤ),
        optimize none rate doel shares b = .error .invalidForecast) ∧
      (∀ (rate doel : ℚ) (shares : List ℚ) (b : List ℤ),
        optimize (some 0) rate doel shares b = .error .invalidForecast) ∧
      (∀ (omzet rate doel : ℚ) (shares : List ℚ) (b : List ℤ), omzet ≠ 0 → rate ≤ 0 →
        optimize (some omzet) rate doel shares b = .error .invalidRate) := by
  refine ⟨fun _ _ _ _ => rfl, fun rate doel shares b => ?_,
    fun omzet rate doel shares b h0 hr => ?_⟩
  · simp [optimize]
  · simp [optimize, h0, hr]

theorem claim_C6_witness :
    ((1 : ℚ) ≠ 0) ∧ ((0 : ℚ) ≤ 0) ∧
      optimize (some 1) 0 1 [] [] = .error .invalidRate :=
  ⟨by norm_num, le_refl 0, claim_C6.2.2 1 0 1 [] [] (by norm_num) (le_refl 0)⟩

/-- C7 (counterexample): on the curve `[1/2, 9/20]` (remainder `1`) the code
increments slot 0, ranking by the bare fractional parts, while the claimed
ranking by `frac[i] * (1 + 0.25 * i/(n-1))` would rank slot 1 first
(`0.45 * 1.25 = 0.5625 > 0.5`) and increment slot 1: the biased ranking the
claim describes does not exist in the code. -/
theorem claim_C7_counterexample :
    integerize [(1 : ℚ)/2, 9/20] = some [1, 0] ∧
      integerizeSpecBiased (1/4) [(1 : ℚ)/2, 9/20] = some [0, 1] ∧
      ([1, 0] : List ℤ) ≠ [0, 1] := by
  refine ⟨?_, ?_, by norm_num⟩
  · norm_num [integerize, incLoop, sortDescByFrac, sortAscByFrac, fracKey, truncQ, pyRound,
      ceil_as_floor, List.insertionSort, List.orderedInsert, List.range_succ]
  · norm_num [integerizeSpecBiased, biasWeight, incLoop, fracKey, truncQ, pyRound,
      ceil_as_floor, List.insertionSort, List.orderedInsert, List.range_succ]

/-- C7 (amended): when the remainder is positive, slots are ranked descending
by the bare fractional part `frac[i]` — no late-day bias weight exists in the
code — and the increments walk that ranking cyclically: slot `i` is
incremented once for every pass of the cycle that lands on it, so the top
`remainder` ranked slots gain 1, wrapping around when `remainder > n`. -/
theorem claim_C7 (x : List ℚ)
    (hrem : 0 < pyRound x.sum - (x.map truncQ).sum) :
    ∃ y, integerize x = some y ∧
      List.Sorted (fun i j => fracKey x j ≤ fracKey x i)
        (sortDescByFrac x (List.range x.length)) ∧
      ∀ i, i < x.length → y.getD i 0 = truncQ (x.getD i 0) +
        (((List.range (pyRound x.sum - (x.map truncQ).sum).toNat).countP
          (fun m => (sortDescByFrac x (List.range x.length)).getD
            (m % x.length) 0 == i)) : ℤ) := by
  have hn : 0 < x.length := by
    rcases List.eq_nil_or_concat x with rfl | ⟨_, _, hcon⟩
    · simp [pyRound] at hrem
    · rw [hcon]
      simp
  set ord := sortDescByFrac x (List.range x.length) with hord
  have hperm : ord.Perm (List.range x.length) := sortDescByFrac_perm x _
  have hlen_ord : ord.length = x.length := by
    rw [hperm.length_eq, List.length_range]
  have ho : ∀ i ∈ ord, i < (x.map truncQ).length := by
    rw [List.length_map]
    exact order_range_mem_lt hperm
  have hne : ord ≠ [] := order_range_ne_nil hperm hn
  refine ⟨incLoop ord (pyRound x.sum - (x.map truncQ).sum).toNat 0 (x.map truncQ),
    ?_, ?_, ?_⟩
  · rw [integerize]
    rw [if_pos ⟨hrem, hn⟩]
  · haveI : IsTotal ℕ (fun i j => fracKey x j ≤ fracKey x i) :=
      ⟨fun a b => le_total (fracKey x b) (fracKey x a)⟩
    haveI : IsTrans ℕ (fun i j => fracKey x j ≤ fracKey x i) :=
      ⟨fun _ _ _ h1 h2 => le_trans h2 h1⟩
    exact List.sorted_insertionSort _ _
  · intro i hi
    rw [incLoop_getD_count ord _ 0 (x.map truncQ) ho hne i]
    have hbase : (x.map truncQ).getD i 0 = truncQ (x.getD i 0) := by
      rw [List.getD_eq_getElem _ _ (by simpa using hi), List.getElem_map,
        List.getD_eq_getElem _ _ hi]
    have hfun : (fun m => ord.getD ((0 + m) % ord.length) 0 == i)
        = (fun m => ord.getD (m % x.length) 0 == i) := by
      funext m
      rw [Nat.zero_add, hlen_ord]
    rw [hbase, hfun]

theorem claim_C7_witness :
    0 < pyRound ([(1 : ℚ)/2, 9/20] : List ℚ).sum
        - (([(1 : ℚ)/2, 9/20] : List ℚ).map truncQ).sum ∧
      (∃ y, integerize [(1 : ℚ)/2, 9/20] = some y ∧
        List.Sorted (fun i j => fracKey [(1 : ℚ)/2, 9/20] j ≤ fracKey [(1 : ℚ)/2, 9/20] i)
          (sortDescByFrac [(1 : ℚ)/2, 9/20] (List.range ([(1 : ℚ)/2, 9/20] : List ℚ).length)) ∧
        ∀ i, i < ([(1 : ℚ)/2, 9/20] : List ℚ).length →
          y.getD i 0 = truncQ (([(1 : ℚ)/2, 9/20] : List ℚ).getD i 0) +
            (((List.range (pyRound ([(1 : ℚ)/2, 9/20] : List ℚ).sum
                - (([(1 : ℚ)/2, 9/20] : List ℚ).map truncQ).sum).toNat).countP
              (fun m => (sortDescByFrac [(1 : ℚ)/2, 9/20]
                  (List.range ([(1 : ℚ)/2, 9/20] : List ℚ).length)).getD
                (m % ([(1 : ℚ)/2, 9/20] : List ℚ).length) 0 == i)) : ℤ)) := by
  have hrem : 0 < pyRound ([(1 : ℚ)/2, 9/20] : List ℚ).sum
      - (([(1 : ℚ)/2, 9/20] : List ℚ).map truncQ).sum := by
    norm_num [pyRound, truncQ, ceil_as_floor]
  exact ⟨hrem, claim_C7 [(1 : ℚ)/2, 9/20] hrem⟩

/-- C8 (counterexample): with demand `[2]` the synthesizer opens two shifts in
slot 0 — both emitted shifts start at slot 0 — exceeding the claimed per-slot
cap `maxStartsPerSlot = 1`; no such cap or backlog exists in the code. -/
theorem claim_C8_counterexample :
    (buildShifts minShiftSlots [2]).countP (fun sh => decide (sh.start = 0)) = 2 ∧
      1 < 2 := by
  constructor
  · decide
  · omega

/-- C8 (amended): in each slot `j` the synthesizer opens exactly
`required - |active|` shifts (truncated at zero), all starting at `j`: every
deficit is opened immediately in the same slot, with no per-slot cap and no
backlog carried to later slots. -/
theorem claim_C8 (need : List ℕ) (j : ℕ) (hj : j < need.length) :
    (buildShifts minShiftSlots need).countP (fun sh => decide (sh.start = j))
      = need.getD j 0 - (activeBefore minShiftSlots need j).length :=
  startsAt_count minShiftSlots need j hj

theorem claim_C8_witness :
    0 < ([2] : List ℕ).length ∧
      (buildShifts minShiftSlots [2]).countP (fun sh => decide (sh.start = 0))
        = ([2] : List ℕ).getD 0 0 - (activeBefore minShiftSlots [2] 0).length :=
  ⟨by decide, claim_C8 [2] 0 (by decide)⟩

/-- C9: on every entrywise nonnegative curve the integerizer terminates and
never returns a negative slot value: the remainder is then never negative, so
the decrement path (which skips zero slots) is not even entered, and the
increment path only raises the nonnegative floor values. -/
theorem claim_C9 (x : List ℚ) (h : ∀ q ∈ x, 0 ≤ q) :
    ∃ y, integerize x = some y ∧ (∀ v ∈ y, 0 ≤ v) ∧ y.sum = pyRound x.sum := by
  exact integerize_nonneg x h

theorem claim_C9_witness :
    (∀ q ∈ ([(1 : ℚ)/2, 1/2] : List ℚ), 0 ≤ q) ∧
      (∃ y, integerize [(1 : ℚ)/2, 1/2] = some y ∧ (∀ v ∈ y, 0 ≤ v) ∧
        y.sum = pyRound ([(1 : ℚ)/2, 1/2] : List ℚ).sum) :=
  ⟨by norm_num, claim_C9 [(1 : ℚ)/2, 1/2] (by norm_num)⟩

/-- C10: after integerization every slot is raised to at least the per-slot
template baseline; when some baseline exceeds the integerized value, the final
curve's total strictly exceeds the preserved rounded total, and the KPI's
planned hours — the final total divided by 4 — strictly exceed the preserved
total's hours as well. -/
theorem claim_C10 (x : List ℚ) (b : List ℤ) (hx : ∀ q ∈ x, 0 ≤ q)
    (hlen : b.length = x.length) :
    ∃ y, integerize x = some y ∧
      (∀ i, i < x.length → b.getD i 0 ≤ (applyBaseline y b).getD i 0) ∧
      ((∃ i, i < x.length ∧ y.getD i 0 < b.getD i 0) →
        pyRound x.sum < (applyBaseline y b).sum ∧
          (pyRound x.sum : ℚ) / 4 < geplandeUren (applyBaseline y b)) := by
  obtain ⟨y, hsome, hysum, hylen, _⟩ := integerize_sum_eq x (List.sum_nonneg hx)
  have hyb : y.length = b.length := by omega
  refine ⟨y, hsome, ?_, ?_⟩
  · intro i hi
    rw [applyBaseline, getD_zipWith_max hyb (by omega)]
    exact le_max_right _ _
  · intro ⟨i, hi, hlt⟩
    have hslt : y.sum < (y.zipWith max b).sum :=
      sum_lt_zipWith_max hyb ⟨i, by omega, hlt⟩
    have h1 : pyRound x.sum < (applyBaseline y b).sum := by
      rw [applyBaseline]
      omega
    refine ⟨h1, ?_⟩
    rw [geplandeUren, plannedBlocks]
    have hcast : ((pyRound x.sum : ℚ)) < (((applyBaseline y b).sum : ℚ)) := by
      exact_mod_cast h1
    exact div_lt_div_of_pos_right hcast (by norm_num)

theorem claim_C10_witness :
    (∀ q ∈ ([(1 : ℚ)/2, 1/2] : List ℚ), 0 ≤ q) ∧
      ([2, 0] : List ℤ).length = ([(1 : ℚ)/2, 1/2] : List ℚ).length ∧
      (∃ y, integerize [(1 : ℚ)/2, 1/2] = some y ∧
        (∀ i, i < ([(1 : ℚ)/2, 1/2] : List ℚ).length →
          ([2, 0] : List ℤ).getD i 0 ≤ (applyBaseline y [2, 0]).getD i 0) ∧
        ((∃ i, i < ([(1 : ℚ)/2, 1/2] : List ℚ).length ∧
            y.getD i 0 < ([2, 0] : List ℤ).getD i 0) →
          pyRound ([(1 : ℚ)/2, 1/2] : List ℚ).sum < (applyBaseline y [2, 0]).sum ∧
            (pyRound ([(1 : ℚ)/2, 1/2] : List ℚ).sum : ℚ) / 4
              < geplandeUren (applyBaseline y [2, 0]))) :=
  ⟨by norm_num, by norm_num, claim_C10 [(1 : ℚ)/2, 1/2] [2, 0] (by norm_num) (by norm_num)⟩

end Rekenservice
